import Mathlib

/-!
Verification of the job-application pipeline: a shallow embedding of the
text-extraction utilities, normalization/upsert logic, filter cascade,
scorer and ingestion bookkeeping of the repository, together with proofs
of the stated properties.

Modeling conventions:
* Python strings are Lean `String`s (`List Char` underneath); only ASCII
  whitespace/digit classes are modeled for the regex character classes.
* Python `float` salary arithmetic is modeled exactly over `ℚ`
  (`round` is Python's round-half-to-even).
* Fallible construction (`raise ValueError`) is modeled with `Except`.
-/

namespace JobBot

/-! ## Python string primitives (app/utils semantics used by the core) -/

/-- ASCII part of Python's whitespace class (`str.strip`, regex (backslash)s). -/
def isPySpace (c : Char) : Bool :=
  c = ' ' || c = '\t' || c = '\n' || c = '\r' || c = '\x0b' || c = '\x0c'

/-- Python `str.strip()` on the underlying character list. -/
def stripList (cs : List Char) : List Char :=
  ((cs.dropWhile isPySpace).reverse.dropWhile isPySpace).reverse

/-- Python `str.strip()`. -/
def pyStrip (s : String) : String := ⟨stripList s.data⟩

/-- Python `str.lower()` (ASCII case folding). -/
def pyLower (s : String) : String := ⟨s.data.map Char.toLower⟩

/-- Does `needle` occur at the head of `hay`? -/
def startsWithList : List Char → List Char → Bool
  | [], _ => true
  | _ :: _, [] => false
  | n :: ns, h :: hs => n = h && startsWithList ns hs

/-- Python substring test `needle in hay` on character lists. -/
def containsSub (hay needle : List Char) : Bool :=
  match hay with
  | [] => needle.isEmpty
  | _ :: rest => startsWithList needle hay || containsSub rest needle

/-- Python substring test `needle in hay` on strings. -/
def pyContains (hay needle : String) : Bool := containsSub hay.data needle.data

/-- The `_normalize` helper shared by `app/matching/filters.py` and the
keyword normalizer of `app/matching/scorer.py`:
strip every entry, keep only truthy entries with non-blank strip. -/
def normalizeStrs (values : List String) : List String :=
  (values.filter (fun v => decide (v ≠ "" ∧ pyStrip v ≠ ""))).map pyStrip

/-! ## Salary extraction (`app/parsing/extract_salary.py`)

The two regexes `_RANGE_PATTERN` and `_SINGLE_PATTERN` are hand-compiled
into deterministic matchers.  Both patterns are backtracking-free (no
character can be consumed by two consecutive subpatterns), so greedy
maximal-munch matching is faithful to Python `re` semantics. -/

/-- A captured currency amount: integer body (digits and commas), optional
fractional digits, and whether a `k`/`K` suffix was captured. -/
structure SalTok where
  digits : List Char
  frac : List Char
  kSuffix : Bool
deriving DecidableEq

/-- Character class `[\d,]` of the integer body. -/
def isIntBody (c : Char) : Bool := c.isDigit || c = ','

/-- Greedy match of the amount subpattern (digit, then digits or commas,
then an optional dot-and-digits group) at the head of the input; returns
the integer body, the fractional digits and the unconsumed rest. -/
def parseNumber (cs : List Char) : Option (List Char × List Char × List Char) :=
  match cs with
  | [] => none
  | c :: rest =>
    if c.isDigit then
      let sp := rest.span isIntBody
      match sp.2 with
      | [] => some (c :: sp.1, [], [])
      | d :: r2 =>
        if d = '.' then
          let fp := r2.span Char.isDigit
          if fp.1.isEmpty then some (c :: sp.1, [], sp.2)
          else some (c :: sp.1, fp.1, fp.2)
        else some (c :: sp.1, [], sp.2)
    else none

/-- Optional `[kK]` suffix: consumed flag and rest. -/
def parseKOpt (cs : List Char) : Bool × List Char :=
  match cs with
  | [] => (false, [])
  | c :: rest => if c = 'k' || c = 'K' then (true, rest) else (false, c :: rest)

/-- The range separator alternation: a dash variant, or the word `to`
case-insensitively. -/
def parseSep (cs : List Char) : Option (List Char) :=
  match cs with
  | [] => none
  | c :: rest =>
    if c = '-' || c = '–' || c = '—' then some rest
    else
      match rest with
      | [] => none
      | c2 :: rest2 =>
        if (c = 't' || c = 'T') && (c2 = 'o' || c2 = 'O') then some rest2 else none

/-- Match of `_SINGLE_PATTERN` anchored at the head of the input. -/
def matchSingleAt (cs : List Char) : Option SalTok :=
  match cs with
  | [] => none
  | c :: rest =>
    if c = '$' then
      match parseNumber rest with
      | some (body, fracd, r1) => some ⟨body, fracd, (parseKOpt r1).1⟩
      | none => none
    else none

/-- Match of `_RANGE_PATTERN` anchored at the head of the input. -/
def matchRangeAt (cs : List Char) : Option (SalTok × SalTok) :=
  match cs with
  | [] => none
  | c :: rest =>
    if c = '$' then
      match parseNumber rest with
      | some (lowBody, lowFrac, r1) =>
        let pk := parseKOpt (r1.dropWhile isPySpace)
        match parseSep (pk.2.dropWhile isPySpace) with
        | some r5 =>
          match r5.dropWhile isPySpace with
          | [] => none
          | d :: r7 =>
            if d = '$' then
              match parseNumber r7 with
              | some (highBody, highFrac, r8) =>
                some (⟨lowBody, lowFrac, pk.1⟩,
                      ⟨highBody, highFrac, (parseKOpt (r8.dropWhile isPySpace)).1⟩)
              | none => none
            else none
        | none => none
      | none => none
    else none

/-- Leftmost search of `_RANGE_PATTERN` (Python `re.search`). -/
def searchRange : List Char → Option (SalTok × SalTok)
  | [] => none
  | c :: rest =>
    match matchRangeAt (c :: rest) with
    | some r => some r
    | none => searchRange rest

/-- Leftmost search of `_SINGLE_PATTERN` (Python `re.finditer`, first item). -/
def searchSingle : List Char → Option SalTok
  | [] => none
  | c :: rest =>
    match matchSingleAt (c :: rest) with
    | some r => some r
    | none => searchSingle rest

/-- Numeric value of a digit character. -/
def digitVal (c : Char) : ℕ := c.toNat - '0'.toNat

/-- Decimal value of a digit list. -/
def natOfDigits (ds : List Char) : ℕ := ds.foldl (fun acc c => 10 * acc + digitVal c) 0

/-- Exact value of a captured amount as numerator over a power-of-ten
denominator: commas removed, fractional digits appended, the `k` suffix
multiplying by 1000 — the `_to_int` helper of `extract_salary.py`
before its final `round`.  The float arithmetic of the source is modeled
exactly. -/
def tokNumDen (t : SalTok) : ℕ × ℕ :=
  let ds := t.digits.filter (fun c => c ≠ ',')
  let den := 10 ^ t.frac.length
  let num := natOfDigits ds * den + natOfDigits t.frac
  if t.kSuffix then (num * 1000, den) else (num, den)

/-- Python's built-in `round` (half to even) of the nonnegative exact
value `num / den`. -/
def roundHalfEven (num den : ℕ) : ℕ :=
  let f := num / den
  let r := num % den
  if 2 * r < den then f
  else if den < 2 * r then f + 1
  else if f % 2 = 0 then f else f + 1

/-- The `_to_int` helper of `extract_salary.py` applied to a captured
amount (the captured amounts are always nonnegative). -/
def tokInt (t : SalTok) : ℤ := (roundHalfEven (tokNumDen t).1 (tokNumDen t).2 : ℕ)

/-- `extract_salary_range` of `app/parsing/extract_salary.py`. -/
def extract_salary_range (text : String) : Option (ℤ × ℤ) :=
  if text = "" then none
  else
    match searchRange text.data with
    | some (lt, ht) =>
      let low := tokInt lt
      let high := tokInt ht
      if high < low then some (high, low) else some (low, high)
    | none =>
      match searchSingle text.data with
      | some t => some (tokInt t, tokInt t)
      | none => none

/-! ## Normalization and upsert (`app/ingestion/base.py`)

`clean_html`, `normalize_location` and the date parser are pure helper
functions whose output the claims below never constrain; they are kept
abstract as a context of function parameters, so every theorem quantifies
over all of their possible behaviours. -/

/-- The two fields of `LocationDetails` (from
`app/parsing/normalize_location.py`) that `normalize_payload` reads. -/
structure LocationDetails where
  normalized : String
  is_remote : Bool
deriving DecidableEq

/-- Pure text helpers used by `normalize_payload`, kept abstract:
`clean_html` of `app/parsing/clean_html.py`, `normalize_location` of
`app/parsing/normalize_location.py`, and the `dateutil` parse inside
`_coerce_datetime` (producing a UTC timestamp, or `none` on failure). -/
structure NormCtx where
  cleanHtml : String → String
  normalizeLocation : String → LocationDetails
  parseDate : String → Option Int

/-- The value found under the `tags` key of a raw payload: absent, a
comma-separated string, or a list of strings. -/
inductive TagsVal where
  | absent
  | ofString (s : String)
  | ofList (l : List String)
deriving DecidableEq

/-- A raw job payload: the mapping keys that `normalize_payload` reads,
with `none` for an absent key.  String-valued entries are modeled as
strings (`str(...)` of a string is the identity). -/
structure Payload where
  source : Option String
  externalId : Option String
  url : Option String
  company : Option String
  title : Option String
  location : Option String
  remote : Option Bool
  postedAt : Option String
  descriptionHtml : Option String
  description : Option String
  descriptionText : Option String
  salaryText : Option String
  salaryRange : Option (Int × Int)
  tags : TagsVal
  rawJson : Option String
  raw : Option String
deriving DecidableEq

/-- The `raw_json` column value: either an explicitly supplied value or,
as the last fallback, the whole payload (`dict(payload)`). -/
inductive RawField where
  | given (s : String)
  | wholePayload (p : Payload)
deriving DecidableEq

/-- Python `a or b` for an optional string `a`: `a` when present and
non-empty (truthy), otherwise `b`. -/
def orStr (a : Option String) (b : String) : String :=
  match a with
  | some s => if s = "" then b else s
  | none => b

/-- The canonical record produced by `normalize_payload`. -/
structure NormalizedJob where
  source : String
  external_id : String
  url : String
  company : String
  title : String
  location : String
  remote : Bool
  posted_at : Option Int
  description_html : String
  description_text : String
  tags : String
  salary_min : Option Int
  salary_max : Option Int
  raw_json : RawField
deriving DecidableEq

/-- The raw parts of the `tags` value before stripping. -/
def rawTagParts : TagsVal → List String
  | .absent => []
  | .ofString s => s.splitOn ","
  | .ofList l => l

/-- `normalize_payload` of `app/ingestion/base.py`. -/
def normalize_payload (ctx : NormCtx) (p : Payload) : NormalizedJob :=
  let source := p.source.getD "unknown"
  let html := orStr p.descriptionHtml (orStr p.description "")
  let text := orStr p.descriptionText (ctx.cleanHtml html)
  let locInfo := ctx.normalizeLocation (p.location.getD "")
  let salaryText := orStr p.salaryText (html ++ "\n" ++ text)
  let salaryRange :=
    match p.salaryRange with
    | some r => some r
    | none => extract_salary_range salaryText
  let tagList := ((rawTagParts p.tags).map pyStrip).filter (fun t => t ≠ "")
  let rawValue := orStr p.rawJson (orStr p.raw "")
  { source := source
    external_id := p.externalId.getD ""
    url := p.url.getD ""
    company :=
      let c := p.company.getD ""
      if c = "" then "Unknown" else c
    title := p.title.getD ""
    location := locInfo.normalized
    remote :=
      match p.remote with
      | some b => b
      | none => locInfo.is_remote
    posted_at := p.postedAt.bind ctx.parseDate
    description_html := html
    description_text := text
    tags := String.intercalate "," tagList
    salary_min := salaryRange.map (fun r => r.1)
    salary_max := salaryRange.map (fun r => r.2)
    raw_json := if rawValue = "" then .wholePayload p else .given rawValue }

/-! ## Upsert (`upsert_job` of `app/ingestion/base.py`)

The database table is a list of stored rows.  The SQLAlchemy session's
`SELECT` by natural key is the first (under the schema's unique
constraint: the only) row whose `(source, external_id)` pair matches. -/

/-- Status string returned by `upsert_job`. -/
inductive UpsertStatus where
  | inserted
  | updated
  | unchanged
deriving DecidableEq

/-- A persisted row: the database-assigned primary key plus the
normalized column values. -/
structure StoredJob where
  rowId : ℕ
  data : NormalizedJob
deriving DecidableEq

/-- Natural-key equality of two normalized records. -/
def sameKey (a b : NormalizedJob) : Prop :=
  a.source = b.source ∧ a.external_id = b.external_id

/-- The `WHERE` clause of the upsert lookup. -/
def keyMatch (j : StoredJob) (n : NormalizedJob) : Bool :=
  decide (j.data.source = n.source) && decide (j.data.external_id = n.external_id)

/-- Equality on every field of `updatable_fields` (all columns except the
primary key, the natural key and `created_at`). -/
def mutableEq (a b : NormalizedJob) : Bool :=
  decide (a.url = b.url) && decide (a.company = b.company) &&
  decide (a.title = b.title) && decide (a.location = b.location) &&
  decide (a.remote = b.remote) && decide (a.posted_at = b.posted_at) &&
  decide (a.description_html = b.description_html) &&
  decide (a.description_text = b.description_text) &&
  decide (a.tags = b.tags) && decide (a.salary_min = b.salary_min) &&
  decide (a.salary_max = b.salary_max) && decide (a.raw_json = b.raw_json)

/-- Core of `upsert_job` once the payload is normalized: find the row by
natural key; absent → insert (with a fresh row id) and report `inserted`;
present with every mutable field equal → report `unchanged`; present with
some mutable field different → overwrite all mutable fields and report
`updated`. -/
def applyUpsert (db : List StoredJob) (n : NormalizedJob) (fresh : ℕ) :
    List StoredJob × UpsertStatus :=
  match db with
  | [] => ([⟨fresh, n⟩], .inserted)
  | j :: rest =>
    if keyMatch j n then
      if mutableEq j.data n then (j :: rest, .unchanged)
      else (⟨j.rowId, n⟩ :: rest, .updated)
    else
      ((j :: (applyUpsert rest n fresh).1), (applyUpsert rest n fresh).2)

/-- `upsert_job` of `app/ingestion/base.py`: normalize, then insert or
update by natural key. -/
def upsert_job (ctx : NormCtx) (db : List StoredJob) (p : Payload) :
    List StoredJob × UpsertStatus :=
  applyUpsert db (normalize_payload ctx p) db.length

/-- The database state respects the schema's unique constraint
`uq_jobs_source_external_id`. -/
def KeyUnique (db : List StoredJob) : Prop :=
  db.Pairwise (fun a b => ¬ sameKey a.data b.data)

/-! ## Ingestion bookkeeping (`IngestionSource.ingest`) -/

/-- Summary counters of an ingestion run (`IngestResult`). -/
structure IngestResult where
  source : String
  fetched : ℕ
  inserted : ℕ
  updated : ℕ
  skipped : ℕ
deriving DecidableEq

/-- The fetch-and-upsert loop of `IngestionSource.ingest`, folding over
the payloads produced by `fetch`: every payload counts as fetched; in a
dry run it is skipped without touching the session; otherwise the upsert
status is tallied (`unchanged` counts as skipped). -/
def ingestLoop (ctx : NormCtx) (dryRun : Bool) :
    List StoredJob → List Payload → IngestResult → List StoredJob × IngestResult
  | db, [], acc => (db, acc)
  | db, p :: ps, acc =>
    let acc1 := { acc with fetched := acc.fetched + 1 }
    if dryRun then
      ingestLoop ctx dryRun db ps { acc1 with skipped := acc1.skipped + 1 }
    else
      ingestLoop ctx dryRun (upsert_job ctx db p).1 ps
        (match (upsert_job ctx db p).2 with
         | .inserted => { acc1 with inserted := acc1.inserted + 1 }
         | .updated => { acc1 with updated := acc1.updated + 1 }
         | .unchanged => { acc1 with skipped := acc1.skipped + 1 })

/-- `IngestionSource.ingest` of `app/ingestion/base.py` over the payload
sequence yielded by `fetch`. -/
def ingest (ctx : NormCtx) (sourceName : String) (db : List StoredJob)
    (payloads : List Payload) (dryRun : Bool) : List StoredJob × IngestResult :=
  ingestLoop ctx dryRun db payloads ⟨sourceName, 0, 0, 0, 0⟩

/-! ## Filter cascade (`app/matching/filters.py`) and ranking
(`match_all` of `app/tasks/jobs.py`)

A candidate is one of the dictionaries built by `match_all`: the fields
that the filters and the ranking sort read, plus the job id standing for
the wrapped job row. -/

/-- One entry of `job_candidates` in `match_all`. -/
structure Candidate where
  jobId : ℕ
  title : String
  location : String
  remote : Bool
  score : ℚ
deriving DecidableEq

/-- `filter_by_geo` of `app/matching/filters.py`: keep remote jobs, and
non-remote jobs whose lower-cased location contains some lower-cased
normalized allowed-region marker. -/
def filter_by_geo (jobs : List Candidate) (allowed_regions : List String) :
    List Candidate :=
  let allowed := (normalizeStrs allowed_regions).map pyLower
  jobs.filter (fun j => j.remote || allowed.any (fun m => pyContains (pyLower j.location) m))

/-- `filter_by_title_keywords` of `app/matching/filters.py`: with no
normalized keywords, pass every job through; otherwise keep jobs whose
lower-cased title contains some lower-cased normalized keyword. -/
def filter_by_title_keywords (jobs : List Candidate) (keywords : List String) :
    List Candidate :=
  let keyword_list := (normalizeStrs keywords).map pyLower
  if keyword_list.isEmpty then jobs
  else jobs.filter (fun j => keyword_list.any (fun k => pyContains (pyLower j.title) k))

/-- Stable insertion of a candidate into a descending-sorted list: the
new element (which comes later in the input order) moves past strictly
greater scores only, so it lands after every earlier element of equal
score. -/
def insertDesc (x : Candidate) : List Candidate → List Candidate
  | [] => [x]
  | y :: ys => if x.score < y.score then y :: insertDesc x ys else x :: y :: ys

/-- The ranking step `title_filtered.sort(key=score, reverse=True)` of
`match_all`: CPython's `list.sort` is documented as stable, and with
`reverse=True` it stably sorts by score descending; this insertion sort
realizes exactly that contract. -/
def rankByScore : List Candidate → List Candidate
  | [] => []
  | x :: xs => insertDesc x (rankByScore xs)

/-! ## Scorer (`app/matching/scorer.py`)

Vectors are lists of reals; `numpy` float arithmetic is modeled by exact
real arithmetic.  The TF-IDF fallback vectorizer (used only when a caller
passes no vectors) is kept abstract, as are the configured weights. -/

/-- Dot product (`np.dot`). -/
def dotList (a b : List ℝ) : ℝ := (List.zipWith (fun x y => x * y) a b).sum

/-- Euclidean norm (`np.linalg.norm`). -/
noncomputable def normList (a : List ℝ) : ℝ := Real.sqrt ((a.map (fun x => x * x)).sum)

/-- `cosine_similarity` of `app/matching/scorer.py`: zero when the
denominator `‖a‖·‖b‖` is zero, the normalized dot product otherwise. -/
noncomputable def cosine_similarity (a b : List ℝ) : ℝ :=
  if normList a * normList b = 0 then 0 else dotList a b / (normList a * normList b)

/-- `_keyword_hits`: the normalized keywords found in the lower-cased job
text, in list order, in original case. -/
def keywordHits (text : String) (keywords : List String) : List String :=
  keywords.filter (fun k => pyContains (pyLower text) (pyLower k))

/-- `ScoreResult` of `app/matching/scorer.py` (the `keyword_weight` field
of the source dataclass stores the keyword ratio). -/
structure ScoreResult where
  score : ℝ
  cosine : ℝ
  keyword_weight : ℝ
  matched_keywords : List String

/-- Configuration and environment of `score`: the two configured weights
and the abstract TF-IDF fallback vectorizer. -/
structure ScoreCtx where
  cosine_weight : ℝ
  keyword_weight : ℝ
  vectorize : String → String → List ℝ × List ℝ

/-- `score` of `app/matching/scorer.py`: keyword ratio over normalized
keywords, cosine similarity over the given (or fallback) vectors, then
the weighted blend clamped into `[0, 1]`. -/
noncomputable def score (ctx : ScoreCtx) (job_text profile_skills : String)
    (keywords_list : List String) (job_vector profile_vector : Option (List ℝ)) :
    ScoreResult :=
  let keywords := normalizeStrs keywords_list
  let hits := keywordHits job_text keywords
  let keyword_ratio : ℝ :=
    if keywords.isEmpty then 0 else (hits.length : ℝ) / (keywords.length : ℝ)
  let vecs :=
    match job_vector, profile_vector with
    | some jv, some pv => (jv, pv)
    | _, _ => ctx.vectorize job_text profile_skills
  let cosine := cosine_similarity vecs.1 vecs.2
  let final := ctx.cosine_weight * cosine + ctx.keyword_weight * keyword_ratio
  { score := max 0 (min 1 final)
    cosine := cosine
    keyword_weight := keyword_ratio
    matched_keywords := hits }

/-! ## Adapter construction (`_build_ingestor` of `app/tasks/jobs.py`) -/

/-- A configuration entry for one source: either a bare string or a
mapping (the keys `_build_ingestor` reads, `none` for an absent key). -/
inductive ConfigEntry where
  | str (s : String)
  | map (board company url : Option String)
deriving DecidableEq

/-- A constructed ingestion adapter.  Constructing an adapter stores its
configuration and performs no network activity (the adapters'
constructors only assign fields). -/
inductive Ingestor where
  | greenhouse (board_url : String)
  | lever (company : String)
  | workday (search_url : String)
deriving DecidableEq

/-- `_build_ingestor` of `app/tasks/jobs.py`; `raise ValueError` is
modeled as `Except.error`. -/
def _build_ingestor (source : String) (entry : ConfigEntry) : Except String Ingestor :=
  if source = "greenhouse" then
    let board := match entry with | .str s => s | .map b _ _ => b.getD ""
    if board = "" then .error "Greenhouse configuration requires a board URL"
    else .ok (.greenhouse board)
  else if source = "lever" then
    let company := match entry with | .str s => s | .map _ c _ => c.getD ""
    if company = "" then .error "Lever configuration requires a company handle"
    else .ok (.lever company)
  else if source = "workday" then
    let search_url := match entry with | .str s => s | .map _ _ u => u.getD ""
    if search_url = "" then .error "Workday configuration requires a search URL"
    else .ok (.workday search_url)
  else .error ("Unsupported ingestion source: " ++ source)

/-- The parameter that `_build_ingestor` requires for a known source:
the bare string itself, or the source's required mapping key. -/
def entryParam (source : String) (entry : ConfigEntry) : String :=
  match entry with
  | .str s => s
  | .map b c u =>
    if source = "greenhouse" then b.getD ""
    else if source = "lever" then c.getD ""
    else u.getD ""

/-! ## Claim-level predicates and concrete instances -/

/-- The data-model invariant on salaries: both bounds absent, or both
present with `salary_min ≤ salary_max`. -/
def salaryOkB (n : NormalizedJob) : Bool :=
  match n.salary_min, n.salary_max with
  | none, none => true
  | some a, some b => decide (a ≤ b)
  | _, _ => false

/-- Idempotence and status correctness of `upsert_job` on a database
state `db` for a payload `p`: the second upsert of the same payload
reports `unchanged` and leaves the whole database (hence every field of
the stored record) exactly as after the first; the first upsert reports
`inserted` exactly when no row with the payload's natural key exists, and
`updated` exactly when such a row exists and differs in some mutable
field. -/
def UpsertIdem (ctx : NormCtx) (db : List StoredJob) (p : Payload) : Prop :=
  (upsert_job ctx (upsert_job ctx db p).1 p).2 = .unchanged ∧
  (upsert_job ctx (upsert_job ctx db p).1 p).1 = (upsert_job ctx db p).1 ∧
  ((upsert_job ctx db p).2 = .inserted ↔
    ∀ j ∈ db, ¬ sameKey j.data (normalize_payload ctx p)) ∧
  ((upsert_job ctx db p).2 = .updated ↔
    ∃ j ∈ db, sameKey j.data (normalize_payload ctx p) ∧
      mutableEq j.data (normalize_payload ctx p) = false)

/-- The geo-filter keep condition as the specification states it: remote,
or the location contains some configured (normalized, non-blank) region
marker as a case-insensitive substring. -/
def geoKeep (allowed_regions : List String) (j : Candidate) : Prop :=
  j.remote = true ∨ ∃ r ∈ allowed_regions, pyStrip r ≠ "" ∧
    pyContains (pyLower j.location) (pyLower (pyStrip r)) = true

/-- The title-filter keep condition as the specification states it: the
title contains some configured (normalized, non-blank) keyword as a
case-insensitive substring. -/
def titleKeep (keywords : List String) (j : Candidate) : Prop :=
  ∃ k ∈ keywords, pyStrip k ≠ "" ∧
    pyContains (pyLower j.title) (pyLower (pyStrip k)) = true

instance geoKeepDecidable (rs : List String) (j : Candidate) : Decidable (geoKeep rs j) := by
  unfold geoKeep; infer_instance

instance titleKeepDecidable (kws : List String) (j : Candidate) : Decidable (titleKeep kws j) := by
  unfold titleKeep; infer_instance

/-- A concrete instantiation of the abstract pure helpers, used to
evaluate the theorems on closed inputs. -/
def idCtx : NormCtx :=
  { cleanHtml := fun s => s
    normalizeLocation := fun s => ⟨s, false⟩
    parseDate := fun _ => none }

/-- A concrete well-formed raw payload. -/
def samplePayload : Payload :=
  { source := some "greenhouse"
    externalId := some "42"
    url := some "https://example.com/jobs/42"
    company := some "Acme"
    title := some "Automation Engineer"
    location := some "Berlin"
    remote := some false
    postedAt := none
    descriptionHtml := some "<p>work</p>"
    description := none
    descriptionText := some "work"
    salaryText := none
    salaryRange := none
    tags := .absent
    rawJson := none
    raw := none }

/-- A raw payload carrying an explicit, unordered `salary_range` value. -/
def badSalaryPayload : Payload :=
  { source := some "manual"
    externalId := some "1"
    url := none
    company := none
    title := none
    location := none
    remote := none
    postedAt := none
    descriptionHtml := none
    description := none
    descriptionText := none
    salaryText := none
    salaryRange := some (100, 50)
    tags := .absent
    rawJson := none
    raw := none }

/-! ## Theorems -/

/-- A successful range match begins with a currency sign and an amount,
so the single-amount pattern matches at the same position. -/
theorem matchRangeAt_imp_single {cs : List Char} {r : SalTok × SalTok}
    (h : matchRangeAt cs = some r) : ∃ t, matchSingleAt cs = some t := by
  match cs with
  | [] => simp [matchRangeAt] at h
  | c :: rest =>
    rw [matchRangeAt] at h
    rw [matchSingleAt]
    by_cases hc : c = '$'
    · simp only [hc, if_true] at h ⊢
      cases hp : parseNumber rest with
      | none => rw [hp] at h; simp at h
      | some trip =>
        obtain ⟨body, fracd, r1⟩ := trip
        exact ⟨_, rfl⟩
    · simp [hc] at h

/-- If the range pattern matches somewhere, so does the single pattern. -/
theorem searchSingle_isSome_of_searchRange {cs : List Char}
    (h : (searchRange cs).isSome) : (searchSingle cs).isSome := by
  induction cs with
  | nil => simp [searchRange] at h
  | cons c rest ih =>
    rw [searchRange] at h
    rw [searchSingle]
    cases hm : matchRangeAt (c :: rest) with
    | some r =>
      obtain ⟨t, ht⟩ := matchRangeAt_imp_single hm
      rw [ht]; simp
    | none =>
      rw [hm] at h
      cases hs : matchSingleAt (c :: rest) with
      | some t => simp
      | none => exact ih h

/-- Branch structure of the extractor: a range match yields the two
normalized amounts in nondecreasing order, otherwise the first standalone
amount is duplicated. -/
theorem extract_salary_range_eq (text : String) :
    extract_salary_range text =
      (match searchRange text.data with
       | some (a, b) => some (min (tokInt a) (tokInt b), max (tokInt a) (tokInt b))
       | none => (searchSingle text.data).map (fun t => (tokInt t, tokInt t))) := by
  rw [extract_salary_range]
  by_cases ht : text = ""
  · subst ht; decide
  · simp only [ht, if_false]
    cases hr : searchRange text.data with
    | some pr =>
      obtain ⟨a, b⟩ := pr
      by_cases hlt : tokInt b < tokInt a
      · simp only [hlt, if_true, Option.some_inj, Prod.mk.injEq]
        omega
      · simp only [hlt, if_false, Option.some_inj, Prod.mk.injEq]
        omega
    | none =>
      cases hs : searchSingle text.data <;> simp

/-- The extractor never returns an inverted pair. -/
theorem extract_salary_range_le (text : String) {l h : ℤ}
    (he : extract_salary_range text = some (l, h)) : l ≤ h := by
  rw [extract_salary_range_eq] at he
  cases hr : searchRange text.data with
  | some pr =>
    obtain ⟨a, b⟩ := pr
    rw [hr] at he
    simp only [Option.some_inj, Prod.mk.injEq] at he
    omega
  | none =>
    rw [hr] at he
    cases hs : searchSingle text.data with
    | some t => rw [hs] at he; simp at he; omega
    | none => rw [hs] at he; simp at he

/-- C2: `extract_salary_range` returns `none` exactly when the text
contains no currency amount (no match of the single-amount pattern);
every returned pair satisfies `low ≤ high`; a range-pattern match yields
the two unit-normalized amounts in order (swapped when inverted), and
otherwise the first standalone amount `v` yields `(v, v)`. -/
theorem extract_salary_range_spec (text : String) :
    (extract_salary_range text = none ↔ searchSingle text.data = none) ∧
    (extract_salary_range text).elim True (fun p => p.1 ≤ p.2) ∧
    extract_salary_range text =
      (match searchRange text.data with
       | some (a, b) => some (min (tokInt a) (tokInt b), max (tokInt a) (tokInt b))
       | none => (searchSingle text.data).map (fun t => (tokInt t, tokInt t))) := by
  refine ⟨?_, ?_, extract_salary_range_eq text⟩
  · rw [extract_salary_range_eq]
    cases hr : searchRange text.data with
    | some pr =>
      obtain ⟨a, b⟩ := pr
      have hs : (searchSingle text.data).isSome :=
        searchSingle_isSome_of_searchRange (by rw [hr]; rfl)
      cases hss : searchSingle text.data with
      | some t => simp
      | none => rw [hss] at hs; simp at hs
    | none =>
      cases hss : searchSingle text.data <;> simp
  · rw [extract_salary_range_eq]
    cases hr : searchRange text.data with
    | some pr =>
      obtain ⟨a, b⟩ := pr
      simp only [Option.elim]
      exact min_le_max
    | none =>
      cases hss : searchSingle text.data with
      | some t => simp
      | none => simp

/-- C3 counterexample: a raw payload that itself carries the unordered
explicit value `salary_range = (100, 50)` is normalized to
`salary_min = 100 > salary_max = 50`: the salary invariant does not hold
for every raw payload. -/
theorem normalize_salary_counterexample :
    (normalize_payload idCtx badSalaryPayload).salary_min = some 100 ∧
    (normalize_payload idCtx badSalaryPayload).salary_max = some 50 ∧
    salaryOkB (normalize_payload idCtx badSalaryPayload) = false := by
  refine ⟨by decide, by decide, by decide⟩

/-- C3 (amended): for every raw payload that does not itself supply an
explicit `salary_range` value, the normalized record satisfies the salary
invariant: both bounds absent, or both present with
`salary_min ≤ salary_max`. -/
theorem normalize_salary_invariant (ctx : NormCtx) (p : Payload) :
    salaryOkB (normalize_payload ctx { p with salaryRange := none }) = true := by
  simp only [normalize_payload, salaryOkB]
  cases he : extract_salary_range
      (orStr p.salaryText
        ((orStr p.descriptionHtml (orStr p.description "")) ++ "\n" ++
          orStr p.descriptionText
            (ctx.cleanHtml (orStr p.descriptionHtml (orStr p.description ""))))) with
  | none => simp
  | some pr =>
    obtain ⟨l, h⟩ := pr
    simp only [Option.map_some']
    exact decide_eq_true (extract_salary_range_le _ he)

/-- The upsert lookup condition decides natural-key equality. -/
theorem keyMatch_eq_true_iff (j : StoredJob) (n : NormalizedJob) :
    keyMatch j n = true ↔ sameKey j.data n := by
  simp [keyMatch, sameKey]

/-- Every record agrees with itself on all mutable fields. -/
theorem mutableEq_self (n : NormalizedJob) : mutableEq n n = true := by
  simp [mutableEq]

/-- A matching row agreeing on all mutable fields equals the incoming
record outright. -/
theorem eq_of_keyMatch_mutableEq {j : StoredJob} {n : NormalizedJob}
    (hk : keyMatch j n = true) (hm : mutableEq j.data n = true) : j.data = n := by
  simp only [keyMatch, Bool.and_eq_true, decide_eq_true_eq] at hk
  simp only [mutableEq, Bool.and_eq_true, decide_eq_true_eq] at hm
  obtain ⟨h1, h2⟩ := hk
  obtain ⟨⟨⟨⟨⟨⟨⟨⟨⟨⟨⟨h3, h4⟩, h5⟩, h6⟩, h7⟩, h8⟩, h9⟩, h10⟩, h11⟩, h12⟩, h13⟩, h14⟩ := hm
  cases j with
  | mk rowId data =>
    cases data
    cases n
    simp_all

/-- Re-upserting the same normalized record returns the database
untouched with status `unchanged`. -/
theorem applyUpsert_idem (db : List StoredJob) (n : NormalizedJob) (fresh fresh' : ℕ) :
    applyUpsert (applyUpsert db n fresh).1 n fresh' =
      ((applyUpsert db n fresh).1, .unchanged) := by
  induction db with
  | nil =>
    simp [applyUpsert, keyMatch, mutableEq]
  | cons j rest ih =>
    by_cases hk : keyMatch j n = true
    · by_cases hm : mutableEq j.data n = true
      · simp only [applyUpsert, if_pos hk, if_pos hm]
      · simp only [applyUpsert, if_pos hk, if_neg hm]
        have hk2 : keyMatch ⟨j.rowId, n⟩ n = true := by simp [keyMatch]
        simp only [applyUpsert, if_pos hk2, mutableEq_self, if_pos]
    · simp only [applyUpsert, if_neg hk]
      simp only [applyUpsert, if_neg hk, ih]

/-- The `inserted` status characterizes the absence of the natural key. -/
theorem applyUpsert_inserted_iff (db : List StoredJob) (n : NormalizedJob) (fresh : ℕ) :
    (applyUpsert db n fresh).2 = .inserted ↔ ∀ j ∈ db, ¬ sameKey j.data n := by
  induction db with
  | nil => simp [applyUpsert]
  | cons j rest ih =>
    by_cases hk : keyMatch j n = true
    · have hs : sameKey j.data n := (keyMatch_eq_true_iff j n).mp hk
      by_cases hm : mutableEq j.data n = true
      · simp only [applyUpsert, if_pos hk, if_pos hm]
        exact iff_of_false (by simp) (fun h => h j (by simp) hs)
      · simp only [applyUpsert, if_pos hk, if_neg hm]
        exact iff_of_false (by simp) (fun h => h j (by simp) hs)
    · have hs : ¬ sameKey j.data n := fun h => hk ((keyMatch_eq_true_iff j n).mpr h)
      simp only [applyUpsert, if_neg hk]
      rw [ih]
      constructor
      · intro h j' hj'
        rcases List.mem_cons.mp hj' with h1 | h2
        · subst h1; exact hs
        · exact h j' h2
      · intro h j' hj'
        exact h j' (List.mem_cons_of_mem _ hj')

/-- Under the unique-key constraint, the `updated` status characterizes
the presence of a row with the natural key differing in some mutable
field. -/
theorem applyUpsert_updated_iff (db : List StoredJob) (n : NormalizedJob) (fresh : ℕ)
    (hu : KeyUnique db) :
    (applyUpsert db n fresh).2 = .updated ↔
      ∃ j ∈ db, sameKey j.data n ∧ mutableEq j.data n = false := by
  induction db with
  | nil => simp [applyUpsert]
  | cons j rest ih =>
    have h1 : ∀ b ∈ rest, ¬ sameKey j.data b.data := (List.pairwise_cons.mp hu).1
    have h2 : KeyUnique rest := (List.pairwise_cons.mp hu).2
    by_cases hk : keyMatch j n = true
    · have hs : sameKey j.data n := (keyMatch_eq_true_iff j n).mp hk
      by_cases hm : mutableEq j.data n = true
      · simp only [applyUpsert, if_pos hk, if_pos hm]
        refine iff_of_false (by simp) ?_
        rintro ⟨j', hj', hs', hm'⟩
        rcases List.mem_cons.mp hj' with he | hr
        · subst he; rw [hm] at hm'; cases hm'
        · exact h1 j' hr ⟨hs.1.trans hs'.1.symm, hs.2.trans hs'.2.symm⟩
      · simp only [applyUpsert, if_pos hk, if_neg hm]
        refine iff_of_true (by trivial) ⟨j, by simp, hs, by simp_all⟩
    · have hs : ¬ sameKey j.data n := fun h => hk ((keyMatch_eq_true_iff j n).mpr h)
      simp only [applyUpsert, if_neg hk]
      rw [ih h2]
      constructor
      · rintro ⟨j', hj', hp⟩
        exact ⟨j', List.mem_cons_of_mem _ hj', hp⟩
      · rintro ⟨j', hj', hp⟩
        rcases List.mem_cons.mp hj' with he | hr
        · subst he; exact absurd hp.1 hs
        · exact ⟨j', hr, hp⟩

/-- C1: upsert is idempotent — with a database state satisfying the
unique natural-key constraint, upserting a payload twice reports
`unchanged` the second time and leaves every stored field exactly as
after the first upsert; the first upsert reports `inserted` exactly when
the natural key was absent, and `updated` exactly when it was present
with some mutable field differing. -/
theorem upsert_job_idempotent (ctx : NormCtx) (db : List StoredJob) (p : Payload)
    (hu : KeyUnique db) : UpsertIdem ctx db p := by
  unfold UpsertIdem upsert_job
  refine ⟨?_, ?_, ?_, ?_⟩
  · rw [applyUpsert_idem]
  · rw [applyUpsert_idem]
  · exact applyUpsert_inserted_iff db (normalize_payload ctx p) db.length
  · exact applyUpsert_updated_iff db (normalize_payload ctx p) db.length hu

/-- Witness for C1: the empty database satisfies the unique-key
constraint and the idempotence property holds there for a concrete
payload and context. -/
theorem upsert_job_idempotent_witness :
    KeyUnique [] ∧ UpsertIdem idCtx [] samplePayload :=
  ⟨List.Pairwise.nil, upsert_job_idempotent idCtx [] samplePayload List.Pairwise.nil⟩

/-- Each payload increments `fetched` exactly once. -/
theorem ingestLoop_fetched (ctx : NormCtx) (dryRun : Bool) (ps : List Payload) :
    ∀ db acc, (ingestLoop ctx dryRun db ps acc).2.fetched = acc.fetched + ps.length := by
  induction ps with
  | nil => intro db acc; simp [ingestLoop]
  | cons p ps ih =>
    intro db acc
    rw [ingestLoop]
    by_cases hd : dryRun = true
    · subst hd
      rw [if_pos rfl, ih]
      simp
      omega
    · rw [if_neg hd]
      cases hst : (upsert_job ctx db p).2 <;> simp only [] <;> rw [ih] <;> simp <;> omega

/-- Each payload increments exactly one of the three outcome counters. -/
theorem ingestLoop_outcomes (ctx : NormCtx) (dryRun : Bool) (ps : List Payload) :
    ∀ db acc,
      (ingestLoop ctx dryRun db ps acc).2.inserted +
        (ingestLoop ctx dryRun db ps acc).2.updated +
        (ingestLoop ctx dryRun db ps acc).2.skipped =
      acc.inserted + acc.updated + acc.skipped + ps.length := by
  induction ps with
  | nil => intro db acc; simp [ingestLoop]
  | cons p ps ih =>
    intro db acc
    rw [ingestLoop]
    by_cases hd : dryRun = true
    · subst hd
      rw [if_pos rfl, ih]
      simp
      omega
    · rw [if_neg hd]
      cases hst : (upsert_job ctx db p).2 <;> simp only [] <;>
        rw [ih] <;> simp <;> omega

/-- A dry run touches neither the database nor the write counters: every
fetched payload is skipped. -/
theorem ingestLoop_dry (ctx : NormCtx) (ps : List Payload) :
    ∀ db acc,
      ingestLoop ctx true db ps acc =
        (db, ⟨acc.source, acc.fetched + ps.length, acc.inserted, acc.updated,
              acc.skipped + ps.length⟩) := by
  induction ps with
  | nil => intro db acc; simp [ingestLoop]
  | cons p ps ih =>
    intro db acc
    rw [ingestLoop]
    rw [if_pos rfl, ih]
    simp
    omega

/-- C10: every ingestion run satisfies
`fetched = inserted + updated + skipped`, and a dry run performs no
upsert against the session (the database is returned untouched), reports
`inserted = 0`, `updated = 0` and skips every fetched payload. -/
theorem ingest_result_invariant (ctx : NormCtx) (src : String) (db : List StoredJob)
    (payloads : List Payload) (dryRun : Bool) :
    (ingest ctx src db payloads dryRun).2.fetched =
      (ingest ctx src db payloads dryRun).2.inserted +
      (ingest ctx src db payloads dryRun).2.updated +
      (ingest ctx src db payloads dryRun).2.skipped ∧
    (ingest ctx src db payloads true).1 = db ∧
    (ingest ctx src db payloads true).2.inserted = 0 ∧
    (ingest ctx src db payloads true).2.updated = 0 ∧
    (ingest ctx src db payloads true).2.skipped =
      (ingest ctx src db payloads true).2.fetched := by
  unfold ingest
  have hf := ingestLoop_fetched ctx dryRun payloads db ⟨src, 0, 0, 0, 0⟩
  have ho := ingestLoop_outcomes ctx dryRun payloads db ⟨src, 0, 0, 0, 0⟩
  have hd := ingestLoop_dry ctx payloads db ⟨src, 0, 0, 0, 0⟩
  refine ⟨?_, ?_, ?_, ?_, ?_⟩
  · simp only [hf, ho]
  · rw [hd]
  · rw [hd]
  · rw [hd]
  · rw [hd]

/-- Membership in the normalized lower-cased marker list. -/
theorem mem_normalized_lower {rs : List String} {m : String} :
    m ∈ (normalizeStrs rs).map pyLower ↔
      ∃ r ∈ rs, pyStrip r ≠ "" ∧ m = pyLower (pyStrip r) := by
  simp only [normalizeStrs, List.map_map, List.mem_map, List.mem_filter,
    decide_eq_true_eq, Function.comp]
  constructor
  · rintro ⟨r, ⟨hr, _, hs⟩, hm⟩
    exact ⟨r, hr, hs, hm.symm⟩
  · rintro ⟨r, hr, hs, hm⟩
    have hne : r ≠ "" := by
      intro he
      rw [he] at hs
      exact hs rfl
    exact ⟨r, ⟨hr, hne, hs⟩, hm.symm⟩

/-- Pointwise agreement of the geo-filter keep condition of the code with
the specification's keep condition. -/
theorem geoKeep_eq (rs : List String) (j : Candidate) :
    (j.remote || ((normalizeStrs rs).map pyLower).any
      (fun m => pyContains (pyLower j.location) m)) = decide (geoKeep rs j) := by
  rw [Bool.eq_iff_iff]
  simp only [Bool.or_eq_true, List.any_eq_true, decide_eq_true_eq, geoKeep]
  constructor
  · rintro (hr | ⟨m, hm, hc⟩)
    · exact Or.inl hr
    · obtain ⟨r, hr, hs, he⟩ := mem_normalized_lower.mp hm
      exact Or.inr ⟨r, hr, hs, he ▸ hc⟩
  · rintro (hr | ⟨r, hr, hs, hc⟩)
    · exact Or.inl hr
    · exact Or.inr ⟨pyLower (pyStrip r), mem_normalized_lower.mpr ⟨r, hr, hs, rfl⟩, hc⟩

/-- C4: the geo filter is an order-preserving filter that keeps exactly
the remote jobs (whatever their location and whatever the configured
regions) together with the non-remote jobs whose location contains some
configured region marker case-insensitively. -/
theorem filter_by_geo_spec (jobs : List Candidate) (allowed_regions : List String) :
    filter_by_geo jobs allowed_regions =
      jobs.filter (fun j => decide (geoKeep allowed_regions j)) ∧
    (filter_by_geo jobs allowed_regions).Sublist jobs := by
  have he : filter_by_geo jobs allowed_regions =
      jobs.filter (fun j => decide (geoKeep allowed_regions j)) := by
    unfold filter_by_geo
    exact List.filter_congr (fun j _ => geoKeep_eq allowed_regions j)
  exact ⟨he, he ▸ List.filter_sublist jobs⟩

/-- Pointwise agreement of the title-filter keep condition of the code
with the specification's keep condition. -/
theorem titleKeep_eq (kws : List String) (j : Candidate) :
    (((normalizeStrs kws).map pyLower).any
      (fun k => pyContains (pyLower j.title) k)) = decide (titleKeep kws j) := by
  rw [Bool.eq_iff_iff]
  simp only [List.any_eq_true, decide_eq_true_eq, titleKeep]
  constructor
  · rintro ⟨m, hm, hc⟩
    obtain ⟨k, hk, hs, he⟩ := mem_normalized_lower.mp hm
    exact ⟨k, hk, hs, he ▸ hc⟩
  · rintro ⟨k, hk, hs, hc⟩
    exact ⟨pyLower (pyStrip k), mem_normalized_lower.mpr ⟨k, hk, hs, rfl⟩, hc⟩

/-- C8: with an empty (or all-blank) configured keyword list the title
filter returns its input unchanged; with a non-empty one it keeps exactly
the jobs whose title contains some keyword case-insensitively.  The
normalized keyword list is empty exactly when every configured entry is
blank after stripping. -/
theorem filter_by_title_keywords_spec (jobs : List Candidate) (keywords : List String) :
    filter_by_title_keywords jobs keywords =
      (if normalizeStrs keywords = [] then jobs
       else jobs.filter (fun j => decide (titleKeep keywords j))) ∧
    (normalizeStrs keywords = [] ↔ ∀ k ∈ keywords, pyStrip k = "") := by
  constructor
  · unfold filter_by_title_keywords
    by_cases hk : normalizeStrs keywords = []
    · simp [hk]
    · rw [if_neg hk, if_neg (by simpa using hk)]
      exact List.filter_congr (fun j _ => titleKeep_eq keywords j)
  · simp only [normalizeStrs, List.map_eq_nil_iff, List.filter_eq_nil_iff,
      decide_eq_true_eq]
    constructor
    · intro h k hk
      by_contra hs
      exact h k hk ⟨fun he => hs (by rw [he]; rfl), hs⟩
    · intro h k hk hc
      exact hc.2 (h k hk)

/-- Membership after stable insertion. -/
theorem mem_insertDesc {z x : Candidate} {t : List Candidate} :
    z ∈ insertDesc x t ↔ z = x ∨ z ∈ t := by
  induction t with
  | nil => simp [insertDesc]
  | cons y ys ih =>
    rw [insertDesc]
    by_cases h : x.score < y.score
    · rw [if_pos h]
      simp only [List.mem_cons, ih]
      tauto
    · rw [if_neg h]
      simp only [List.mem_cons]

/-- Stable insertion preserves the descending-sorted property. -/
theorem pairwise_insertDesc {x : Candidate} {t : List Candidate}
    (h : t.Pairwise (fun a b => b.score ≤ a.score)) :
    (insertDesc x t).Pairwise (fun a b => b.score ≤ a.score) := by
  induction t with
  | nil => simp [insertDesc]
  | cons y ys ih =>
    obtain ⟨hy, hys⟩ := List.pairwise_cons.mp h
    rw [insertDesc]
    by_cases hlt : x.score < y.score
    · rw [if_pos hlt]
      refine List.pairwise_cons.mpr ⟨?_, ih hys⟩
      intro z hz
      rcases mem_insertDesc.mp hz with he | hm
      · subst he; exact le_of_lt hlt
      · exact hy z hm
    · rw [if_neg hlt]
      refine List.pairwise_cons.mpr ⟨?_, h⟩
      intro z hz
      rcases List.mem_cons.mp hz with he | hm
      · subst he; exact le_of_not_lt hlt
      · exact le_trans (hy z hm) (le_of_not_lt hlt)

/-- Stable insertion is a permutation of consing. -/
theorem perm_insertDesc (x : Candidate) (t : List Candidate) :
    (insertDesc x t).Perm (x :: t) := by
  induction t with
  | nil => simp [insertDesc]
  | cons y ys ih =>
    rw [insertDesc]
    by_cases hlt : x.score < y.score
    · rw [if_pos hlt]
      exact (ih.cons y).trans (List.Perm.swap x y ys)
    · rw [if_neg hlt]

/-- Inserting an element of a different score leaves the equal-score
subsequence unchanged. -/
theorem filter_insertDesc_ne {x : Candidate} {s : ℚ} (t : List Candidate)
    (hx : ¬ x.score = s) :
    (insertDesc x t).filter (fun c => decide (c.score = s)) =
      t.filter (fun c => decide (c.score = s)) := by
  induction t with
  | nil => simp [insertDesc, hx]
  | cons y ys ih =>
    rw [insertDesc]
    by_cases hlt : x.score < y.score
    · rw [if_pos hlt]
      simp [List.filter_cons, ih]
    · rw [if_neg hlt]
      simp [List.filter_cons, hx]

/-- Inserting an element of score `s` puts it before every equal-score
element that it passed over — which, since it only passes strictly
greater scores, is none of them: the element lands at the head of the
equal-score subsequence of the part it traversed.  Because the new
element comes from later input, the overall equal-score subsequence of
the insertion-sorted list is the input's. -/
theorem filter_insertDesc_eq {x : Candidate} {s : ℚ} (t : List Candidate)
    (hx : x.score = s) :
    (insertDesc x t).filter (fun c => decide (c.score = s)) =
      x :: t.filter (fun c => decide (c.score = s)) := by
  induction t with
  | nil => simp [insertDesc, hx]
  | cons y ys ih =>
    rw [insertDesc]
    by_cases hlt : x.score < y.score
    · rw [if_pos hlt]
      have hy : ¬ y.score = s := by
        intro he
        rw [← hx] at he
        exact absurd he (ne_of_gt hlt)
      simp only [List.filter_cons]
      simp [hy, ih]
    · rw [if_neg hlt]
      simp only [List.filter_cons]
      simp [hx]

/-- C7: the ranking step is a stable descending sort — the output is
sorted by score descending, is a permutation of its input, and for every
score value the subsequence of jobs carrying exactly that score appears
in the same order as in the input sequence produced by the filter
cascade. -/
theorem rankByScore_spec (l : List Candidate) :
    (rankByScore l).Pairwise (fun a b => b.score ≤ a.score) ∧
    (rankByScore l).Perm l ∧
    ∀ s : ℚ, (rankByScore l).filter (fun c => decide (c.score = s)) =
      l.filter (fun c => decide (c.score = s)) := by
  induction l with
  | nil => exact ⟨List.Pairwise.nil, List.Perm.refl [], fun s => rfl⟩
  | cons x xs ih =>
    obtain ⟨hp, hperm, hfil⟩ := ih
    refine ⟨pairwise_insertDesc hp, ?_, ?_⟩
    · exact (perm_insertDesc x (rankByScore xs)).trans (hperm.cons x)
    · intro s
      by_cases hx : x.score = s
      · rw [rankByScore, filter_insertDesc_eq _ hx, hfil]
        simp [List.filter_cons, hx]
      · rw [rankByScore, filter_insertDesc_ne _ hx, hfil]
        simp [List.filter_cons, hx]

/-- The dot product is symmetric. -/
theorem dotList_comm (a b : List ℝ) : dotList a b = dotList b a := by
  unfold dotList
  rw [List.zipWith_comm_of_comm (fun x y => x * y) mul_comm]

/-- C6: `cosine_similarity` is total — it returns exactly 0 whenever
either vector has zero norm (the guarded branch, never dividing by zero)
and the normalized dot product otherwise — and it is symmetric in its
two arguments. -/
theorem cosine_similarity_spec (a b : List ℝ) :
    cosine_similarity a b =
      (if normList a = 0 ∨ normList b = 0 then 0
       else dotList a b / (normList a * normList b)) ∧
    cosine_similarity a b = cosine_similarity b a := by
  constructor
  · unfold cosine_similarity
    by_cases h : normList a * normList b = 0
    · rw [if_pos h, if_pos (mul_eq_zero.mp h)]
    · rw [if_neg h, if_neg (fun hc => h (mul_eq_zero.mpr hc))]
  · unfold cosine_similarity
    rw [dotList_comm, mul_comm (normList a)]

/-- C5: the final score returned by `score` is the weighted blend of the
cosine component and the keyword ratio clamped into the unit interval,
and therefore lies in `[0, 1]` whatever the configured weights are. -/
theorem score_clamped (ctx : ScoreCtx) (job_text profile_skills : String)
    (keywords_list : List String) (job_vector profile_vector : Option (List ℝ)) :
    (score ctx job_text profile_skills keywords_list job_vector profile_vector).score =
      max 0 (min 1 (ctx.cosine_weight *
        (score ctx job_text profile_skills keywords_list job_vector profile_vector).cosine +
        ctx.keyword_weight *
        (score ctx job_text profile_skills keywords_list job_vector
            profile_vector).keyword_weight)) ∧
    0 ≤ (score ctx job_text profile_skills keywords_list job_vector profile_vector).score ∧
    (score ctx job_text profile_skills keywords_list job_vector profile_vector).score ≤ 1 := by
  refine ⟨rfl, le_max_left 0 _, max_le zero_le_one (min_le_left 1 _)⟩

/-- C9: `_build_ingestor` returns an adapter exactly when the source
identifier is one of the three supported ones and the source's required
parameter is present and non-empty; in every other case it fails at
construction time — the model performs no fetch, mirroring constructors
that only store configuration. -/
theorem build_ingestor_spec (source : String) (entry : ConfigEntry) :
    (_build_ingestor source entry).isOk = true ↔
      ((source = "greenhouse" ∨ source = "lever" ∨ source = "workday") ∧
        entryParam source entry ≠ "") := by
  unfold _build_ingestor entryParam
  by_cases h1 : source = "greenhouse"
  · cases entry with
    | str s => by_cases hs : s = "" <;> simp [h1, hs, Except.isOk, Except.toBool]
    | map b c u =>
      by_cases hb : b.getD "" = "" <;> simp [h1, hb, Except.isOk, Except.toBool]
  · by_cases h2 : source = "lever"
    · cases entry with
      | str s => by_cases hs : s = "" <;> simp [h1, h2, hs, Except.isOk, Except.toBool]
      | map b c u =>
        by_cases hc : c.getD "" = "" <;> simp [h1, h2, hc, Except.isOk, Except.toBool]
    · by_cases h3 : source = "workday"
      · cases entry with
        | str s => by_cases hs : s = "" <;> simp [h1, h2, h3, hs, Except.isOk, Except.toBool]
        | map b c u =>
          by_cases hu : u.getD "" = "" <;> simp [h1, h2, h3, hu, Except.isOk, Except.toBool]
      · simp [h1, h2, h3, Except.isOk, Except.toBool]

/-- Specification example: a k-suffixed range is normalized to units. -/
theorem salary_example_range :
    extract_salary_range "$85k - $105k" = some (85000, 105000) := by decide

/-- Specification example: a single amount is duplicated. -/
theorem salary_example_single :
    extract_salary_range "$120000 plus benefits" = some (120000, 120000) := by decide

/-- Specification example: no currency amount yields nothing. -/
theorem salary_example_none : extract_salary_range "Competitive pay" = none := by decide

/-- Specification example: an inverted range is swapped. -/
theorem salary_example_swap :
    extract_salary_range "between $105k to $85k" = some (85000, 105000) := by decide

/-- Specification example: a remote job with location `Unknown` is
retained whatever the region list; a non-remote Berlin job is dropped for
regions `Remote, Canada`. -/
theorem geo_example :
    filter_by_geo
      [⟨1, "T", "Unknown", true, 0⟩, ⟨2, "T", "Berlin", false, 0⟩]
      ["Remote", "Canada"] = [⟨1, "T", "Unknown", true, 0⟩] := by decide

/-- Specification example: the title filter with an empty keyword list is
a pass-through. -/
theorem title_example_passthrough :
    filter_by_title_keywords
      [⟨1, "Dev", "X", false, 0⟩, ⟨2, "Chef", "Y", true, 1⟩] [] =
      [⟨1, "Dev", "X", false, 0⟩, ⟨2, "Chef", "Y", true, 1⟩] := by decide

end JobBot
